import Mathlib

/-!
Verification of the chunking core of `scripts/generate-options.py`.

The script downloads JSON datasets and splits each one into chunks whose
estimated serialized size stays under a byte budget (`split_json_data`).
This file embeds the JSON data model, the relevant parts of Python's
`json.dumps` (compact with default separators, and `indent=2`), and the
chunking algorithm, and proves the documented properties about them.

Modelling notes:
- JSON numbers are modelled as integers (the datasets' numeric fields are
  integral; float formatting is out of scope).
- Python dicts are modelled as ordered association lists, matching dict
  insertion order.
- The byte budget is a parameter `B`; the script instantiates it with the
  global constant `MAX_FILE_SIZE = 80 * 1024`.  Python's `MAX_FILE_SIZE - 2`
  is computed in `Int` to mirror Python's signed subtraction.
- File persistence (the tail of `split_json_data`) is I/O glue; the function
  here returns the list of chunks, of which the script writes one file each
  and returns the count.
-/

/-- JSON values.  Numbers are modelled as integers; object member order is
the Python dict insertion order. -/
inductive Json where
| null : Json
| bool (b : Bool) : Json
| int (n : Int) : Json
| str (s : String) : Json
| arr (items : List Json) : Json
| obj (pairs : List (String × Json)) : Json

/-- Lower-case hex digit, as produced by Python's `\uXXXX` escapes. -/
def hexDigit (n : Nat) : Char :=
  if n < 10 then Char.ofNat (48 + n) else Char.ofNat (87 + n)

/-- Escaping of one character inside a JSON string literal, following
`json.dumps` with `ensure_ascii=False`: only the quote, the backslash and
control characters are escaped. -/
def escapeChar (c : Char) : String :=
  if c = Char.ofNat 34 then "\\\""
  else if c = Char.ofNat 92 then "\\\\"
  else if c = Char.ofNat 10 then "\\n"
  else if c = Char.ofNat 9 then "\\t"
  else if c = Char.ofNat 13 then "\\r"
  else if c = Char.ofNat 8 then "\\b"
  else if c = Char.ofNat 12 then "\\f"
  else if c.toNat < 32 then
    "\\u00" ++ String.mk [hexDigit (c.toNat / 16), hexDigit (c.toNat % 16)]
  else String.mk [c]

/-- JSON string literal encoding (quotes plus escaped content). -/
def encodeString (s : String) : String :=
  "\"" ++ String.join (s.data.map escapeChar) ++ "\""

mutual

/-- Compact serialization: `json.dumps(v, ensure_ascii=False)` with the
default separators `(", ", ": ")`. -/
def dumpsVal : Json → String
| Json.null => "null"
| Json.bool true => "true"
| Json.bool false => "false"
| Json.int n => toString n
| Json.str s => encodeString s
| Json.arr items => "[" ++ dumpsMems items ++ "]"
| Json.obj pairs => "\x7b" ++ dumpsPairs pairs ++ "\x7d"

/-- Array members joined by `", "`. -/
def dumpsMems : List Json → String
| [] => ""
| [x] => dumpsVal x
| x :: y :: xs => dumpsVal x ++ ", " ++ dumpsMems (y :: xs)

/-- Object members `"key": value` joined by `", "`. -/
def dumpsPairs : List (String × Json) → String
| [] => ""
| [(k, v)] => encodeString k ++ ": " ++ dumpsVal v
| (k, v) :: p :: rest => encodeString k ++ ": " ++ dumpsVal v ++ ", " ++ dumpsPairs (p :: rest)

end

/-- Indentation prefix for nesting level `L` with `indent=2`. -/
def indentStr (L : Nat) : String := String.mk (List.replicate (2 * L) ' ')

mutual

/-- Indented serialization: `json.dumps(v, ensure_ascii=False, indent=2)`
rendered at nesting level `L` (the script uses `L = 0`).  Empty containers
stay on one line; nonempty ones put each member on its own line. -/
def dumpsIndVal : Json → Nat → String
| Json.arr [], _ => "[]"
| Json.arr (x :: xs), L =>
    "[\n" ++ dumpsIndMems (x :: xs) (L + 1) ++ "\n" ++ indentStr L ++ "]"
| Json.obj [], _ => "\x7b\x7d"
| Json.obj (p :: ps), L =>
    "\x7b\n" ++ dumpsIndPairs (p :: ps) (L + 1) ++ "\n" ++ indentStr L ++ "\x7d"
| v, _ => dumpsVal v

/-- Indented array members, each prefixed by the level's indentation and
joined by `",\n"`. -/
def dumpsIndMems : List Json → Nat → String
| [], _ => ""
| [x], L => indentStr L ++ dumpsIndVal x L
| x :: y :: xs, L => indentStr L ++ dumpsIndVal x L ++ ",\n" ++ dumpsIndMems (y :: xs) L

/-- Indented object members, each prefixed by the level's indentation and
joined by `",\n"`. -/
def dumpsIndPairs : List (String × Json) → Nat → String
| [], _ => ""
| [(k, v)], L => indentStr L ++ encodeString k ++ ": " ++ dumpsIndVal v L
| (k, v) :: p :: rest, L =>
    indentStr L ++ encodeString k ++ ": " ++ dumpsIndVal v L ++ ",\n" ++ dumpsIndPairs (p :: rest) L

end

/-- UTF-8 byte length, i.e. Python's `len(s.encode('utf-8'))`. -/
def bytes (s : String) : Nat := s.utf8ByteSize

/-- Per-item size estimate of the list branch (lines 99-100):
`len(json.dumps(item, ensure_ascii=False).encode('utf-8')) + 1`. -/
def listEst (item : Json) : Nat := bytes (dumpsVal item) + 1

/-- Per-pair size estimate of the dict branch (lines 137-138):
`len(json.dumps({key: value}, ensure_ascii=False).encode('utf-8'))`. -/
def dictEst (kv : String × Json) : Nat := bytes (dumpsVal (Json.obj [kv]))

/-- Main loop of the list branch of `split_json_data` (lines 94-122),
including the trailing `if current_chunk: chunks.append(current_chunk)`. -/
def splitListLoop (B : Nat) :
    List Json → List (List Json) → List Json → Nat → List (List Json)
| [], chunks, current_chunk, _ =>
    if current_chunk.isEmpty then chunks else chunks ++ [current_chunk]
| item :: rest, chunks, current_chunk, current_size =>
    let item_size := listEst item
    if (item_size : Int) > (B : Int) - 2 then
      if current_chunk.isEmpty then
        splitListLoop B rest (chunks ++ [[item]]) [] current_size
      else
        splitListLoop B rest (chunks ++ [current_chunk, [item]]) [] 2
    else if current_size + item_size > B then
      splitListLoop B rest (chunks ++ [current_chunk]) [item] (2 + item_size)
    else
      splitListLoop B rest chunks (current_chunk ++ [item]) (current_size + item_size)

/-- List branch of `split_json_data`: loop started with no chunks, an empty
current chunk and `current_size = 2` (the `[]` brackets). -/
def splitListData (B : Nat) (data : List Json) : List (List Json) :=
  splitListLoop B data [] [] 2

/-- Main loop of the dict branch of `split_json_data` (lines 132-157). -/
def splitDictLoop (B : Nat) :
    List (String × Json) → List (List (String × Json)) → List (String × Json) → Nat →
      List (List (String × Json))
| [], chunks, current_chunk, _ =>
    if current_chunk.isEmpty then chunks else chunks ++ [current_chunk]
| kv :: rest, chunks, current_chunk, current_size =>
    let item_size := dictEst kv
    if (item_size : Int) > (B : Int) - 2 then
      if current_chunk.isEmpty then
        splitDictLoop B rest (chunks ++ [[kv]]) [] current_size
      else
        splitDictLoop B rest (chunks ++ [current_chunk, [kv]]) [] 2
    else if current_size + item_size > B then
      splitDictLoop B rest (chunks ++ [current_chunk]) [kv] (2 + item_size)
    else
      splitDictLoop B rest chunks (current_chunk ++ [kv]) (current_size + item_size)

/-- Dict splitting loop started with `current_size = 2` (the braces). -/
def splitDictData (B : Nat) (data : List (String × Json)) : List (List (String × Json)) :=
  splitDictLoop B data [] [] 2

/-- The chunking core of `split_json_data` (lines 90-159), with the byte
budget `B` abstracting the global `MAX_FILE_SIZE`.  Lists are split by
items; dicts are kept whole when their indented serialization fits within
the budget and otherwise split by top-level keys; anything else passes
through as a single chunk. -/
def split_json_data (B : Nat) : Json → List Json
| Json.arr items => (splitListData B items).map Json.arr
| Json.obj pairs =>
    if bytes (dumpsIndVal (Json.obj pairs) 0) ≤ B then [Json.obj pairs]
    else (splitDictData B pairs).map Json.obj
| data => [data]

/-- Maximum file size in bytes, line 37 of the script. -/
def MAX_FILE_SIZE : Nat := 80 * 1024

/-- Chunking as actually invoked by the script, with the global budget. -/
def split_json_data_script (data : Json) : List Json :=
  split_json_data MAX_FILE_SIZE data

/-- Elements of a chunk produced from a list dataset. -/
def chunkItems : Json → List Json
| Json.arr items => items
| _ => []

/-- Key/value pairs of a chunk produced from a mapping dataset. -/
def chunkPairs : Json → List (String × Json)
| Json.obj pairs => pairs
| _ => []

/-- Estimated content size of a list chunk: the 2-byte container overhead
plus the per-item estimates the algorithm accumulates. -/
def listChunkSize (c : List Json) : Nat := 2 + (c.map listEst).sum

/-- Estimated content size of a dict chunk: the 2-byte container overhead
plus the per-pair estimates the algorithm accumulates. -/
def dictChunkSize (c : List (String × Json)) : Nat := 2 + (c.map dictEst).sum

/-- Scalar (non-container) JSON values. -/
def isScalar : Json → Bool
| Json.arr _ => false
| Json.obj _ => false
| _ => true

/-- Follows the spec's words (section 4.1): the greedy packing procedure over
an arbitrary element type, parameterized by the per-element size estimate
`est`, with the accumulator seeded at the container overhead 2. -/
def specGreedyLoop (B : Nat) (est : α → Nat) :
    List α → List (List α) → List α → Nat → List (List α)
| [], chunks, cur, _ => if cur.isEmpty then chunks else chunks ++ [cur]
| x :: rest, chunks, cur, sz =>
    let s := est x
    if (s : Int) > (B : Int) - 2 then
      if cur.isEmpty then specGreedyLoop B est rest (chunks ++ [[x]]) [] sz
      else specGreedyLoop B est rest (chunks ++ [cur, [x]]) [] 2
    else if sz + s > B then specGreedyLoop B est rest (chunks ++ [cur]) [x] (2 + s)
    else specGreedyLoop B est rest chunks (cur ++ [x]) (sz + s)

/-- Follows the spec's words: greedy split with estimate `est`, started from
the empty accumulation. -/
def specGreedySplit (B : Nat) (est : α → Nat) (data : List α) : List (List α) :=
  specGreedyLoop B est data [] [] 2

theorem bytes_append (a b : String) : bytes (a ++ b) = bytes a + bytes b := by
  cases a with
  | mk l₁ =>
    cases b with
    | mk l₂ =>
      show (String.mk (l₁ ++ l₂)).utf8ByteSize = _
      simp [bytes]

theorem utf8Len_replicate_space (n : Nat) :
    String.utf8Len (List.replicate n ' ') = n := by
  induction n with
  | zero => rfl
  | succ m ih =>
    have hs : ' '.utf8Size = 1 := rfl
    simp [List.replicate, ih, hs]

theorem bytes_indentStr (L : Nat) : bytes (indentStr L) = 2 * L := by
  simp [bytes, indentStr, utf8Len_replicate_space]

theorem dictEst_eq (k : String) (v : Json) :
    dictEst (k, v) = bytes (encodeString k) + bytes (dumpsVal v) + 4 := by
  have h1 : bytes "\x7b" = 1 := rfl
  have h2 : bytes "\x7d" = 1 := rfl
  have h3 : bytes ": " = 2 := rfl
  simp [dictEst, dumpsVal, dumpsPairs, bytes_append, h1, h2, h3]
  omega

theorem dictEst_pos (kv : String × Json) : 1 ≤ dictEst kv := by
  obtain ⟨k, v⟩ := kv
  rw [dictEst_eq]
  omega

theorem listChunkSize_append (c : List Json) (e : Json) :
    listChunkSize (c ++ [e]) = listChunkSize c + listEst e := by
  simp [listChunkSize]
  omega

theorem dictChunkSize_append (c : List (String × Json)) (kv : String × Json) :
    dictChunkSize (c ++ [kv]) = dictChunkSize c + dictEst kv := by
  simp [dictChunkSize]
  omega

theorem dictChunkSize_pos_of_ne_nil (c : List (String × Json)) (h : c ≠ []) :
    3 ≤ dictChunkSize c := by
  cases c with
  | nil => exact absurd rfl h
  | cons kv rest =>
    have := dictEst_pos kv
    simp [dictChunkSize]
    omega

mutual

theorem dumpsVal_le_ind : (v : Json) → (L : Nat) →
    bytes (dumpsVal v) ≤ bytes (dumpsIndVal v L)
| Json.null, _ => by simp [dumpsIndVal]
| Json.bool true, _ => by simp [dumpsIndVal]
| Json.bool false, _ => by simp [dumpsIndVal]
| Json.int n, _ => by simp [dumpsIndVal]
| Json.str s, _ => by simp [dumpsIndVal]
| Json.arr [], _ => by simp [dumpsIndVal, dumpsVal, dumpsMems]
| Json.arr (x :: xs), L => by
    have h := dumpsMems_le_ind (x :: xs) (L + 1)
    have h1 : bytes "[" = 1 := rfl
    have h2 : bytes "]" = 1 := rfl
    have h3 : bytes "[\n" = 2 := rfl
    have h4 : bytes "\n" = 1 := rfl
    simp [dumpsVal, dumpsIndVal, bytes_append, bytes_indentStr, h1, h2, h3, h4]
    omega
| Json.obj [], _ => by simp [dumpsIndVal, dumpsVal, dumpsPairs]
| Json.obj (p :: ps), L => by
    have h := dumpsPairs_le_ind (p :: ps) (L + 1)
    have h1 : bytes "\x7b" = 1 := rfl
    have h2 : bytes "\x7d" = 1 := rfl
    have h3 : bytes "\x7b\n" = 2 := rfl
    have h4 : bytes "\n" = 1 := rfl
    simp [dumpsVal, dumpsIndVal, bytes_append, bytes_indentStr, h1, h2, h3, h4]
    omega

theorem dumpsMems_le_ind : (xs : List Json) → (L : Nat) →
    bytes (dumpsMems xs) ≤ bytes (dumpsIndMems xs L)
| [], _ => by simp [dumpsMems, dumpsIndMems]
| [x], L => by
    have h := dumpsVal_le_ind x L
    simp [dumpsMems, dumpsIndMems, bytes_append, bytes_indentStr]
    omega
| x :: y :: xs, L => by
    have h := dumpsVal_le_ind x L
    have h2 := dumpsMems_le_ind (y :: xs) L
    have h3 : bytes ", " = 2 := rfl
    have h4 : bytes ",\n" = 2 := rfl
    simp [dumpsMems, dumpsIndMems, bytes_append, bytes_indentStr, h3, h4]
    omega

theorem dumpsPairs_le_ind : (ps : List (String × Json)) → (L : Nat) →
    bytes (dumpsPairs ps) ≤ bytes (dumpsIndPairs ps L)
| [], _ => by simp [dumpsPairs, dumpsIndPairs]
| [(k, v)], L => by
    have h := dumpsVal_le_ind v L
    simp [dumpsPairs, dumpsIndPairs, bytes_append, bytes_indentStr]
    omega
| (k, v) :: p :: ps, L => by
    have h := dumpsVal_le_ind v L
    have h2 := dumpsPairs_le_ind (p :: ps) L
    have h3 : bytes ", " = 2 := rfl
    have h4 : bytes ",\n" = 2 := rfl
    simp [dumpsPairs, dumpsIndPairs, bytes_append, bytes_indentStr, h3, h4]
    omega

end

theorem dumpsIndPairs_lower : (ps : List (String × Json)) → ps ≠ [] →
    (ps.map dictEst).sum + 2 * ps.length ≤ bytes (dumpsIndPairs ps 1) + 2
| [], h => absurd rfl h
| [(k, v)], _ => by
    have h := dumpsVal_le_ind v 1
    have he := dictEst_eq k v
    have h3 : bytes ": " = 2 := rfl
    simp [dumpsIndPairs, bytes_append, bytes_indentStr, h3]
    omega
| (k, v) :: p :: rest, _ => by
    have h := dumpsVal_le_ind v 1
    have he := dictEst_eq k v
    have h2 := dumpsIndPairs_lower (p :: rest) (by simp)
    have h3 : bytes ": " = 2 := rfl
    have h4 : bytes ",\n" = 2 := rfl
    simp only [dumpsIndPairs, bytes_append, bytes_indentStr, h3, h4, List.map_cons,
      List.sum_cons, List.length_cons] at *
    omega

theorem dumpsInd_obj_lower (ps : List (String × Json)) (h : ps ≠ []) :
    (ps.map dictEst).sum + 2 * ps.length + 2 ≤ bytes (dumpsIndVal (Json.obj ps) 0) := by
  cases ps with
  | nil => exact absurd rfl h
  | cons p rest =>
    have hl := dumpsIndPairs_lower (p :: rest) (by simp)
    have h1 : bytes "\x7b\n" = 2 := rfl
    have h2 : bytes "\n" = 1 := rfl
    have h3 : bytes "\x7d" = 1 := rfl
    simp only [dumpsIndVal, bytes_append, bytes_indentStr, h1, h2, h3, Nat.zero_add] at *
    omega

theorem shortcut_chunkSize_le (B : Nat) (ps : List (String × Json))
    (h : bytes (dumpsIndVal (Json.obj ps) 0) ≤ B) : dictChunkSize ps ≤ B := by
  cases ps with
  | nil =>
    have h2 : bytes (dumpsIndVal (Json.obj []) 0) = 2 := rfl
    simp [dictChunkSize]
    omega
  | cons p rest =>
    have hlow := dumpsInd_obj_lower (p :: rest) (by simp)
    simp only [dictChunkSize] at *
    omega

theorem shortcut_no_big (B : Nat) (ps : List (String × Json)) (kv : String × Json)
    (h : bytes (dumpsIndVal (Json.obj ps) 0) ≤ B) (hkv : kv ∈ ps) :
    ¬ ((dictEst kv : Int) > (B : Int) - 3) := by
  have hlow := dumpsInd_obj_lower ps (by rintro rfl; cases hkv)
  have hmem : dictEst kv ≤ (ps.map dictEst).sum :=
    List.single_le_sum (fun x _ => Nat.zero_le x) _ (List.mem_map_of_mem dictEst hkv)
  have hlen : 1 ≤ ps.length := by
    cases ps with
    | nil => cases hkv
    | cons a l => simp
  intro hgt
  omega

/-- Well-formedness of a chunk emitted by the list branch: it is nonempty,
it respects the budget unless it is a singleton, and an item whose estimate
triggers the oversize branch sits in it alone. -/
def GoodL (B : Nat) (c : List Json) : Prop :=
  c ≠ [] ∧ (2 ≤ c.length → listChunkSize c ≤ B) ∧
    ∀ e ∈ c, (listEst e : Int) > (B : Int) - 2 → c = [e]

/-- Well-formedness of a chunk emitted by the dict branch; the isolation
threshold `B - 3` is one byte below the oversize branch's `B - 2`, and holds
because a pair estimated at exactly `B - 2` can never share a chunk. -/
def GoodD (B : Nat) (c : List (String × Json)) : Prop :=
  c ≠ [] ∧ (2 ≤ c.length → dictChunkSize c ≤ B) ∧
    ∀ kv ∈ c, (dictEst kv : Int) > (B : Int) - 3 → c = [kv]

theorem splitListLoop_invariant (B : Nat) (rest : List Json) :
    ∀ (chunks : List (List Json)) (cur : List Json) (sz : Nat),
    sz = listChunkSize cur →
    (2 ≤ cur.length → sz ≤ B) →
    (∀ e ∈ cur, ¬ ((listEst e : Int) > (B : Int) - 2)) →
    (∀ c ∈ chunks, GoodL B c) →
    (splitListLoop B rest chunks cur sz).flatten = chunks.flatten ++ cur ++ rest ∧
      ∀ c ∈ splitListLoop B rest chunks cur sz, GoodL B c := by
  induction rest with
  | nil =>
    intro chunks cur sz hsz hle hcur hch
    by_cases hc : cur = []
    · subst hc
      simp [splitListLoop]
      exact hch
    · have hne : cur.isEmpty = false := by simp [hc]
      simp only [splitListLoop, hne, Bool.false_eq_true, if_false]
      refine ⟨by simp, ?_⟩
      intro c hmem
      rcases List.mem_append.mp hmem with h | h
      · exact hch c h
      · have hcc : c = cur := by simpa using h
        subst hcc
        exact ⟨hc, fun h2 => hsz ▸ hle h2, fun e he hov => absurd hov (hcur e he)⟩
  | cons item rest ih =>
    intro chunks cur sz hsz hle hcur hch
    have hgood_single : GoodL B [item] := by
      refine ⟨by simp, by simp, ?_⟩
      intro e he _
      have he2 : e = item := by simpa using he
      subst he2
      rfl
    have hgood_cur : cur ≠ [] → GoodL B cur := fun hc =>
      ⟨hc, fun h2 => hsz ▸ hle h2, fun e he hov => absurd hov (hcur e he)⟩
    by_cases h1 : (listEst item : Int) > (B : Int) - 2
    · by_cases hc : cur = []
      · subst hc
        have hgood : ∀ c ∈ chunks ++ [[item]], GoodL B c := by
          intro c hmem
          rcases List.mem_append.mp hmem with h | h
          · exact hch c h
          · have hcc : c = [item] := by simpa using h
            subst hcc
            exact hgood_single
        obtain ⟨hj, hg⟩ := ih (chunks ++ [[item]]) [] sz hsz hle hcur hgood
        have hstep : splitListLoop B (item :: rest) chunks [] sz =
            splitListLoop B rest (chunks ++ [[item]]) [] sz := by
          simp only [splitListLoop, h1, if_true]
          rfl
        rw [hstep, hj]
        exact ⟨by simp, hg⟩
      · have hne : cur.isEmpty = false := by simp [hc]
        have hgood : ∀ c ∈ chunks ++ [cur, [item]], GoodL B c := by
          intro c hmem
          rcases List.mem_append.mp hmem with h | h
          · exact hch c h
          · rcases (by simpa using h : c = cur ∨ c = [item]) with rfl | rfl
            · exact hgood_cur hc
            · exact hgood_single
        obtain ⟨hj, hg⟩ := ih (chunks ++ [cur, [item]]) [] 2 rfl (by simp) (by simp) hgood
        have hstep : splitListLoop B (item :: rest) chunks cur sz =
            splitListLoop B rest (chunks ++ [cur, [item]]) [] 2 := by
          simp only [splitListLoop, h1, if_true, hne, Bool.false_eq_true, if_false]
        rw [hstep, hj]
        exact ⟨by simp, hg⟩
    · by_cases h2 : sz + listEst item > B
      · have hc : cur ≠ [] := by
          intro hnil
          subst hnil
          simp only [listChunkSize, List.map_nil, List.sum_nil] at hsz
          omega
        have hgood : ∀ c ∈ chunks ++ [cur], GoodL B c := by
          intro c hmem
          rcases List.mem_append.mp hmem with h | h
          · exact hch c h
          · have hcc : c = cur := by simpa using h
            subst hcc
            exact hgood_cur hc
        have hsz1 : 2 + listEst item = listChunkSize [item] := by
          simp [listChunkSize]
        have honly : ∀ e ∈ [item], ¬ ((listEst e : Int) > (B : Int) - 2) := by
          intro e he
          have he2 : e = item := by simpa using he
          subst he2
          exact h1
        obtain ⟨hj, hg⟩ :=
          ih (chunks ++ [cur]) [item] (2 + listEst item) hsz1 (by simp) honly hgood
        have hstep : splitListLoop B (item :: rest) chunks cur sz =
            splitListLoop B rest (chunks ++ [cur]) [item] (2 + listEst item) := by
          simp only [splitListLoop, h1, if_false, h2, if_true]
        rw [hstep, hj]
        exact ⟨by simp, hg⟩
      · have hsz2 : sz + listEst item = listChunkSize (cur ++ [item]) := by
          rw [listChunkSize_append, hsz]
        have hcur2 : ∀ e ∈ cur ++ [item], ¬ ((listEst e : Int) > (B : Int) - 2) := by
          intro e he
          rcases List.mem_append.mp he with h | h
          · exact hcur e h
          · have he2 : e = item := by simpa using h
            subst he2
            exact h1
        obtain ⟨hj, hg⟩ := ih chunks (cur ++ [item]) (sz + listEst item) hsz2
          (fun _ => by omega) hcur2 hch
        have hstep : splitListLoop B (item :: rest) chunks cur sz =
            splitListLoop B rest chunks (cur ++ [item]) (sz + listEst item) := by
          simp only [splitListLoop, h1, if_false, h2, if_true]
        rw [hstep, hj]
        exact ⟨by simp, hg⟩

theorem splitDictLoop_invariant (B : Nat) (rest : List (String × Json)) :
    ∀ (chunks : List (List (String × Json))) (cur : List (String × Json)) (sz : Nat),
    sz = dictChunkSize cur →
    (2 ≤ cur.length → sz ≤ B) →
    (∀ kv ∈ cur, (dictEst kv : Int) > (B : Int) - 3 → cur = [kv]) →
    (∀ c ∈ chunks, GoodD B c) →
    (splitDictLoop B rest chunks cur sz).flatten = chunks.flatten ++ cur ++ rest ∧
      ∀ c ∈ splitDictLoop B rest chunks cur sz, GoodD B c := by
  induction rest with
  | nil =>
    intro chunks cur sz hsz hle hiso hch
    by_cases hc : cur = []
    · subst hc
      simp [splitDictLoop]
      exact hch
    · have hne : cur.isEmpty = false := by simp [hc]
      simp only [splitDictLoop, hne, Bool.false_eq_true, if_false]
      refine ⟨by simp, ?_⟩
      intro c hmem
      rcases List.mem_append.mp hmem with h | h
      · exact hch c h
      · have hcc : c = cur := by simpa using h
        subst hcc
        exact ⟨hc, fun h2 => hsz ▸ hle h2, hiso⟩
  | cons kv rest ih =>
    intro chunks cur sz hsz hle hiso hch
    have hgood_single : GoodD B [kv] := by
      refine ⟨by simp, by simp, ?_⟩
      intro x hx _
      have hx2 : x = kv := by simpa using hx
      subst hx2
      rfl
    have hgood_cur : cur ≠ [] → GoodD B cur := fun hc =>
      ⟨hc, fun h2 => hsz ▸ hle h2, hiso⟩
    by_cases h1 : (dictEst kv : Int) > (B : Int) - 2
    · by_cases hc : cur = []
      · subst hc
        have hgood : ∀ c ∈ chunks ++ [[kv]], GoodD B c := by
          intro c hmem
          rcases List.mem_append.mp hmem with h | h
          · exact hch c h
          · have hcc : c = [kv] := by simpa using h
            subst hcc
            exact hgood_single
        obtain ⟨hj, hg⟩ := ih (chunks ++ [[kv]]) [] sz hsz hle hiso hgood
        have hstep : splitDictLoop B (kv :: rest) chunks [] sz =
            splitDictLoop B rest (chunks ++ [[kv]]) [] sz := by
          simp only [splitDictLoop, h1, if_true]
          rfl
        rw [hstep, hj]
        exact ⟨by simp, hg⟩
      · have hne : cur.isEmpty = false := by simp [hc]
        have hgood : ∀ c ∈ chunks ++ [cur, [kv]], GoodD B c := by
          intro c hmem
          rcases List.mem_append.mp hmem with h | h
          · exact hch c h
          · rcases (by simpa using h : c = cur ∨ c = [kv]) with rfl | rfl
            · exact hgood_cur hc
            · exact hgood_single
        obtain ⟨hj, hg⟩ := ih (chunks ++ [cur, [kv]]) [] 2 rfl (by simp) (by simp) hgood
        have hstep : splitDictLoop B (kv :: rest) chunks cur sz =
            splitDictLoop B rest (chunks ++ [cur, [kv]]) [] 2 := by
          simp only [splitDictLoop, h1, if_true, hne, Bool.false_eq_true, if_false]
        rw [hstep, hj]
        exact ⟨by simp, hg⟩
    · by_cases h2 : sz + dictEst kv > B
      · have hc : cur ≠ [] := by
          intro hnil
          subst hnil
          simp only [dictChunkSize, List.map_nil, List.sum_nil] at hsz
          omega
        have hgood : ∀ c ∈ chunks ++ [cur], GoodD B c := by
          intro c hmem
          rcases List.mem_append.mp hmem with h | h
          · exact hch c h
          · have hcc : c = cur := by simpa using h
            subst hcc
            exact hgood_cur hc
        have hsz1 : 2 + dictEst kv = dictChunkSize [kv] := by
          simp [dictChunkSize]
        have hiso1 : ∀ x ∈ [kv], (dictEst x : Int) > (B : Int) - 3 → [kv] = [x] := by
          intro x hx _
          have hx2 : x = kv := by simpa using hx
          subst hx2
          rfl
        obtain ⟨hj, hg⟩ :=
          ih (chunks ++ [cur]) [kv] (2 + dictEst kv) hsz1 (by simp) hiso1 hgood
        have hstep : splitDictLoop B (kv :: rest) chunks cur sz =
            splitDictLoop B rest (chunks ++ [cur]) [kv] (2 + dictEst kv) := by
          simp only [splitDictLoop, h1, if_false, h2, if_true]
        rw [hstep, hj]
        exact ⟨by simp, hg⟩
      · have hsz2 : sz + dictEst kv = dictChunkSize (cur ++ [kv]) := by
          rw [dictChunkSize_append, hsz]
        have hiso2 : ∀ x ∈ cur ++ [kv],
            (dictEst x : Int) > (B : Int) - 3 → cur ++ [kv] = [x] := by
          intro x hx hbig
          rcases List.mem_append.mp hx with h | h
          · exfalso
            have hcx : cur = [x] := hiso x h hbig
            have hszx : sz = 2 + dictEst x := by
              rw [hsz, hcx]
              simp [dictChunkSize]
            have hpos := dictEst_pos kv
            omega
          · have hx2 : x = kv := by simpa using h
            subst hx2
            by_cases hc : cur = []
            · simp [hc]
            · exfalso
              have h3 := dictChunkSize_pos_of_ne_nil cur hc
              omega
        obtain ⟨hj, hg⟩ := ih chunks (cur ++ [kv]) (sz + dictEst kv) hsz2
          (fun _ => by omega) hiso2 hch
        have hstep : splitDictLoop B (kv :: rest) chunks cur sz =
            splitDictLoop B rest chunks (cur ++ [kv]) (sz + dictEst kv) := by
          simp only [splitDictLoop, h1, if_false, h2, if_true]
        rw [hstep, hj]
        exact ⟨by simp, hg⟩

theorem splitListData_flatten (B : Nat) (xs : List Json) :
    (splitListData B xs).flatten = xs := by
  have h := splitListLoop_invariant B xs [] [] 2 rfl (by simp) (by simp) (by simp)
  simpa [splitListData] using h.1

theorem splitListData_good (B : Nat) (xs : List Json) :
    ∀ c ∈ splitListData B xs, GoodL B c := by
  have h := splitListLoop_invariant B xs [] [] 2 rfl (by simp) (by simp) (by simp)
  simpa [splitListData] using h.2

theorem splitDictData_flatten (B : Nat) (ps : List (String × Json)) :
    (splitDictData B ps).flatten = ps := by
  have h := splitDictLoop_invariant B ps [] [] 2 rfl (by simp) (by simp) (by simp)
  simpa [splitDictData] using h.1

theorem splitDictData_good (B : Nat) (ps : List (String × Json)) :
    ∀ c ∈ splitDictData B ps, GoodD B c := by
  have h := splitDictLoop_invariant B ps [] [] 2 rfl (by simp) (by simp) (by simp)
  simpa [splitDictData] using h.2

theorem split_json_data_arr (B : Nat) (xs : List Json) :
    split_json_data B (Json.arr xs) = (splitListData B xs).map Json.arr := rfl

theorem split_json_data_obj (B : Nat) (ps : List (String × Json)) :
    split_json_data B (Json.obj ps) =
      if bytes (dumpsIndVal (Json.obj ps) 0) ≤ B then [Json.obj ps]
      else (splitDictData B ps).map Json.obj := rfl

theorem splitListLoop_eq_specGreedy (B : Nat) (rest : List Json) :
    ∀ (chunks : List (List Json)) (cur : List Json) (sz : Nat),
      splitListLoop B rest chunks cur sz = specGreedyLoop B listEst rest chunks cur sz := by
  induction rest with
  | nil => intro chunks cur sz; rfl
  | cons item rest ih =>
    intro chunks cur sz
    simp only [splitListLoop, specGreedyLoop, ih]

theorem splitDictLoop_eq_specGreedy (B : Nat) (rest : List (String × Json)) :
    ∀ (chunks : List (List (String × Json))) (cur : List (String × Json)) (sz : Nat),
      splitDictLoop B rest chunks cur sz = specGreedyLoop B dictEst rest chunks cur sz := by
  induction rest with
  | nil => intro chunks cur sz; rfl
  | cons kv rest ih =>
    intro chunks cur sz
    simp only [splitDictLoop, specGreedyLoop, ih]

/-- Claim C1: for every list dataset and every positive budget, concatenating
in order the chunks returned by `split_json_data` reproduces the original
list exactly (same elements, same order, none lost or duplicated); likewise,
for every mapping dataset, merging the chunk sub-mappings in order reproduces
the original mapping with the same key/value associations and key order. -/
theorem split_json_data_lossless (B : Nat) (hB : 0 < B)
    (xs : List Json) (ps : List (String × Json)) :
    ((split_json_data B (Json.arr xs)).map chunkItems).flatten = xs ∧
    ((split_json_data B (Json.obj ps)).map chunkPairs).flatten = ps := by
  constructor
  · rw [split_json_data_arr, List.map_map]
    have hid : chunkItems ∘ Json.arr = id := funext fun c => rfl
    rw [hid, List.map_id, splitListData_flatten]
  · rw [split_json_data_obj]
    by_cases h : bytes (dumpsIndVal (Json.obj ps) 0) ≤ B
    · rw [if_pos h]
      simp [chunkPairs]
    · rw [if_neg h, List.map_map]
      have hid : chunkPairs ∘ Json.obj = id := funext fun c => rfl
      rw [hid, List.map_id, splitDictData_flatten]

theorem split_json_data_lossless_witness :
    0 < 10 ∧
    (((split_json_data 10 (Json.arr [Json.int 1, Json.int 2])).map chunkItems).flatten =
        [Json.int 1, Json.int 2] ∧
      ((split_json_data 10 (Json.obj [("a", Json.int 1)])).map chunkPairs).flatten =
        [("a", Json.int 1)]) :=
  ⟨by decide, split_json_data_lossless 10 (by decide) [Json.int 1, Json.int 2]
    [("a", Json.int 1)]⟩

/-- Claim C6: a mapping dataset whose whole-document serialization with
2-space indentation has UTF-8 byte length not exceeding the budget yields
exactly one chunk, the original mapping unmodified. -/
theorem split_json_data_whole_mapping_shortcut (B : Nat) (ps : List (String × Json))
    (h : bytes (dumpsIndVal (Json.obj ps) 0) ≤ B) :
    split_json_data B (Json.obj ps) = [Json.obj ps] := by
  rw [split_json_data_obj, if_pos h]

theorem split_json_data_whole_mapping_shortcut_witness :
    bytes (dumpsIndVal (Json.obj [("a", Json.int 1)]) 0) ≤ 100 ∧
    split_json_data 100 (Json.obj [("a", Json.int 1)]) = [Json.obj [("a", Json.int 1)]] :=
  ⟨by decide, split_json_data_whole_mapping_shortcut 100 [("a", Json.int 1)] (by decide)⟩

/-- Claim C7: for every positive budget, chunking an empty list dataset
yields zero chunks, not a single empty chunk. -/
theorem split_json_data_empty_list (B : Nat) (hB : 0 < B) :
    split_json_data B (Json.arr []) = [] := rfl

theorem split_json_data_empty_list_witness :
    0 < 100 ∧ split_json_data 100 (Json.arr []) = [] :=
  ⟨by decide, split_json_data_empty_list 100 (by decide)⟩

/-- Claim C8: a JSON value that is neither a list nor a mapping passes
through as exactly one chunk containing the value unchanged, and the result
does not depend on the budget. -/
theorem split_json_data_scalar_passthrough (B B' : Nat) (v : Json)
    (h : isScalar v = true) :
    split_json_data B v = [v] ∧ split_json_data B v = split_json_data B' v := by
  cases v <;> simp_all [isScalar, split_json_data]

theorem split_json_data_scalar_passthrough_witness :
    isScalar (Json.int 7) = true ∧
    (split_json_data 5 (Json.int 7) = [Json.int 7] ∧
      split_json_data 5 (Json.int 7) = split_json_data 99 (Json.int 7)) :=
  ⟨rfl, split_json_data_scalar_passthrough 5 99 (Json.int 7) rfl⟩

/-- Claim C9: chunking is deterministic; two invocations on identical
dataset and budget produce identical chunk sequences. -/
theorem split_json_data_deterministic (D₁ D₂ : Json) (B₁ B₂ : Nat)
    (hD : D₁ = D₂) (hB : B₁ = B₂) :
    split_json_data B₁ D₁ = split_json_data B₂ D₂ := by
  subst hD
  subst hB
  rfl

theorem split_json_data_deterministic_witness :
    Json.arr [Json.int 1] = Json.arr [Json.int 1] ∧ (37 : Nat) = 37 ∧
    split_json_data 37 (Json.arr [Json.int 1]) = split_json_data 37 (Json.arr [Json.int 1]) :=
  ⟨rfl, rfl, split_json_data_deterministic (Json.arr [Json.int 1]) (Json.arr [Json.int 1])
    37 37 rfl rfl⟩

/-- Claim C10 (amended): every chunk produced by the element-scanning paths
is nonempty; for list datasets no chunk is ever empty, and for mapping
datasets no chunk is empty provided the mapping itself is nonempty.  (The
whole-mapping shortcut emits the dataset unchanged, so the empty mapping
yields a single empty chunk — the counterexample to the unamended claim.) -/
theorem split_json_data_no_empty_chunks (B : Nat) (hB : 0 < B) (xs : List Json)
    (ps : List (String × Json)) (hps : ps ≠ []) :
    (∀ c ∈ split_json_data B (Json.arr xs), chunkItems c ≠ []) ∧
    (∀ c ∈ split_json_data B (Json.obj ps), chunkPairs c ≠ []) := by
  constructor
  · intro c hc
    rw [split_json_data_arr] at hc
    obtain ⟨c', hc', rfl⟩ := List.mem_map.mp hc
    simpa [chunkItems] using (splitListData_good B xs c' hc').1
  · intro c hc
    rw [split_json_data_obj] at hc
    by_cases h : bytes (dumpsIndVal (Json.obj ps) 0) ≤ B
    · rw [if_pos h] at hc
      have hc2 : c = Json.obj ps := by simpa using hc
      subst hc2
      simpa [chunkPairs] using hps
    · rw [if_neg h] at hc
      obtain ⟨c', hc', rfl⟩ := List.mem_map.mp hc
      simpa [chunkPairs] using (splitDictData_good B ps c' hc').1

theorem split_json_data_no_empty_chunks_witness :
    0 < 40 ∧ ([("a", Json.int 1)] : List (String × Json)) ≠ [] ∧
    ((∀ c ∈ split_json_data 40 (Json.arr [Json.int 5]), chunkItems c ≠ []) ∧
      (∀ c ∈ split_json_data 40 (Json.obj [("a", Json.int 1)]), chunkPairs c ≠ [])) :=
  ⟨by decide, by simp, split_json_data_no_empty_chunks 40 (by decide) [Json.int 5]
    [("a", Json.int 1)] (by simp)⟩

theorem split_json_data_no_empty_chunks_cex :
    split_json_data 100 (Json.obj []) = [Json.obj []] ∧ chunkPairs (Json.obj []) = [] :=
  ⟨rfl, rfl⟩

/-- Claim C2: every chunk produced by `split_json_data` that contains more
than one element has an estimated content size (container overhead 2 plus
the per-element estimates accumulated by the algorithm) that does not exceed
the budget; only a chunk holding exactly one oversized element may exceed
it. -/
theorem split_json_data_budget_adherence (B : Nat) (hB : 0 < B)
    (xs : List Json) (ps : List (String × Json)) :
    (∀ c ∈ split_json_data B (Json.arr xs),
        2 ≤ (chunkItems c).length → listChunkSize (chunkItems c) ≤ B) ∧
    (∀ c ∈ split_json_data B (Json.obj ps),
        2 ≤ (chunkPairs c).length → dictChunkSize (chunkPairs c) ≤ B) := by
  constructor
  · intro c hc hlen
    rw [split_json_data_arr] at hc
    obtain ⟨c', hc', rfl⟩ := List.mem_map.mp hc
    exact (splitListData_good B xs c' hc').2.1 (by simpa [chunkItems] using hlen)
  · intro c hc hlen
    rw [split_json_data_obj] at hc
    by_cases h : bytes (dumpsIndVal (Json.obj ps) 0) ≤ B
    · rw [if_pos h] at hc
      have hc2 : c = Json.obj ps := by simpa using hc
      subst hc2
      simpa [chunkPairs] using shortcut_chunkSize_le B ps h
    · rw [if_neg h] at hc
      obtain ⟨c', hc', rfl⟩ := List.mem_map.mp hc
      exact (splitDictData_good B ps c' hc').2.1 (by simpa [chunkPairs] using hlen)

theorem split_json_data_budget_adherence_witness :
    0 < 12 ∧
    ((∀ c ∈ split_json_data 12 (Json.arr [Json.int 1, Json.int 2, Json.int 3]),
        2 ≤ (chunkItems c).length → listChunkSize (chunkItems c) ≤ 12) ∧
      (∀ c ∈ split_json_data 12 (Json.obj [("a", Json.int 1)]),
        2 ≤ (chunkPairs c).length → dictChunkSize (chunkPairs c) ≤ 12)) :=
  ⟨by decide, split_json_data_budget_adherence 12 (by decide)
    [Json.int 1, Json.int 2, Json.int 3] [("a", Json.int 1)]⟩

/-- Claim C3: an element whose own serialized UTF-8 byte size exceeds
`budget - 3` occupies a chunk by itself in the output of `split_json_data`
(for a pair, the serialized size is that of the one-pair mapping the code
measures), and when the scanning loop meets such an element any in-progress
accumulation is flushed first as its own chunk. -/
theorem split_json_data_oversize_isolation (B : Nat) (hB : 0 < B)
    (xs : List Json) (ps : List (String × Json)) :
    (∀ c ∈ split_json_data B (Json.arr xs), ∀ e ∈ chunkItems c,
        (bytes (dumpsVal e) : Int) > (B : Int) - 3 → chunkItems c = [e]) ∧
    (∀ c ∈ split_json_data B (Json.obj ps), ∀ kv ∈ chunkPairs c,
        (dictEst kv : Int) > (B : Int) - 3 → chunkPairs c = [kv]) ∧
    (∀ (item : Json) (rest : List Json) (chunks : List (List Json))
        (cur : List Json) (sz : Nat), cur ≠ [] →
        (listEst item : Int) > (B : Int) - 2 →
        splitListLoop B (item :: rest) chunks cur sz =
          splitListLoop B rest (chunks ++ [cur, [item]]) [] 2) ∧
    (∀ (kv : String × Json) (rest : List (String × Json))
        (chunks : List (List (String × Json))) (cur : List (String × Json))
        (sz : Nat), cur ≠ [] →
        (dictEst kv : Int) > (B : Int) - 2 →
        splitDictLoop B (kv :: rest) chunks cur sz =
          splitDictLoop B rest (chunks ++ [cur, [kv]]) [] 2) := by
  refine ⟨?_, ?_, ?_, ?_⟩
  · intro c hc e he hbig
    rw [split_json_data_arr] at hc
    obtain ⟨c', hc', rfl⟩ := List.mem_map.mp hc
    have hov : (listEst e : Int) > (B : Int) - 2 := by
      simp only [listEst]
      push_cast
      omega
    exact (splitListData_good B xs c' hc').2.2 e (by simpa [chunkItems] using he) hov
  · intro c hc kv hkv hbig
    rw [split_json_data_obj] at hc
    by_cases h : bytes (dumpsIndVal (Json.obj ps) 0) ≤ B
    · rw [if_pos h] at hc
      have hc2 : c = Json.obj ps := by simpa using hc
      subst hc2
      exact absurd hbig (shortcut_no_big B ps kv h (by simpa [chunkPairs] using hkv))
    · rw [if_neg h] at hc
      obtain ⟨c', hc', rfl⟩ := List.mem_map.mp hc
      exact (splitDictData_good B ps c' hc').2.2 kv (by simpa [chunkPairs] using hkv) hbig
  · intro item rest chunks cur sz hc h1
    have hne : cur.isEmpty = false := by simp [hc]
    simp only [splitListLoop, h1, if_true, hne, Bool.false_eq_true, if_false]
  · intro kv rest chunks cur sz hc h1
    have hne : cur.isEmpty = false := by simp [hc]
    simp only [splitDictLoop, h1, if_true, hne, Bool.false_eq_true, if_false]

theorem split_json_data_oversize_isolation_witness :
    0 < 10 ∧
    ((∀ c ∈ split_json_data 10 (Json.arr [Json.int 1, Json.str "aaaaaaaaaaaa"]),
        ∀ e ∈ chunkItems c,
        (bytes (dumpsVal e) : Int) > (10 : Int) - 3 → chunkItems c = [e]) ∧
      (∀ c ∈ split_json_data 10 (Json.obj [("a", Json.int 1), ("bbbb", Json.int 22222)]),
        ∀ kv ∈ chunkPairs c,
        (dictEst kv : Int) > (10 : Int) - 3 → chunkPairs c = [kv]) ∧
      (∀ (item : Json) (rest : List Json) (chunks : List (List Json))
          (cur : List Json) (sz : Nat), cur ≠ [] →
          (listEst item : Int) > (10 : Int) - 2 →
          splitListLoop 10 (item :: rest) chunks cur sz =
            splitListLoop 10 rest (chunks ++ [cur, [item]]) [] 2) ∧
      (∀ (kv : String × Json) (rest : List (String × Json))
          (chunks : List (List (String × Json))) (cur : List (String × Json))
          (sz : Nat), cur ≠ [] →
          (dictEst kv : Int) > (10 : Int) - 2 →
          splitDictLoop 10 (kv :: rest) chunks cur sz =
            splitDictLoop 10 rest (chunks ++ [cur, [kv]]) [] 2)) :=
  ⟨by decide, split_json_data_oversize_isolation 10 (by decide)
    [Json.int 1, Json.str "aaaaaaaaaaaa"] [("a", Json.int 1), ("bbbb", Json.int 22222)]⟩

/-- Two pairs whose one-pair-mapping serializations are 10 bytes each:
`'\x7b"ab": 12\x7d'` and `'\x7b"cd": 34\x7d'`. -/
def pairs22 : List (String × Json) := [("ab", Json.int 12), ("cd", Json.int 34)]

/-- Claim C4 (counterexample): the claim's per-element estimate for mapping
datasets — the pair's serialized byte length *plus one separator byte* —
does not reproduce the packing decisions of `split_json_data`.  With budget
22 and two pairs of serialized size 10 each, the code packs both pairs into
one chunk (2 + 10 + 10 = 22 ≤ 22), while the claimed estimate would split
them (2 + 11 + 11 = 24 > 22). -/
theorem split_json_data_dict_estimate_cex :
    dictEst ("ab", Json.int 12) = 10 ∧ dictEst ("cd", Json.int 34) = 10 ∧
    ¬ bytes (dumpsIndVal (Json.obj pairs22) 0) ≤ 22 ∧
    split_json_data 22 (Json.obj pairs22) = [Json.obj pairs22] ∧
    split_json_data 22 (Json.obj pairs22) ≠
      (specGreedySplit 22 (fun kv => bytes (dumpsVal (Json.obj [kv])) + 1)
        pairs22).map Json.obj := by
  refine ⟨rfl, rfl, by decide, rfl, ?_⟩
  intro h
  have h1 : split_json_data 22 (Json.obj pairs22) = [Json.obj pairs22] := rfl
  have h2 : (specGreedySplit 22 (fun kv => bytes (dumpsVal (Json.obj [kv])) + 1)
      pairs22).map Json.obj =
      [Json.obj [("ab", Json.int 12)], Json.obj [("cd", Json.int 34)]] := rfl
  rw [h1, h2] at h
  simp [pairs22] at h

/-- Claim C4 (amended): the size estimate `split_json_data` uses for packing
decisions is the container overhead 2 (the accumulator's seed) plus, for each
element, that element's individually-serialized UTF-8 byte length plus one
separator byte for *list* datasets, but with *no* added separator byte for
mapping datasets, where the per-pair estimate is the byte length of the
one-pair mapping `'\x7b"key": value\x7d'` (whose braces already account for the
punctuation). -/
theorem split_json_data_estimates (B : Nat) (xs : List Json)
    (ps : List (String × Json)) :
    splitListData B xs = specGreedySplit B (fun item => bytes (dumpsVal item) + 1) xs ∧
    splitDictData B ps = specGreedySplit B (fun kv => bytes (dumpsVal (Json.obj [kv]))) ps := by
  constructor
  · exact splitListLoop_eq_specGreedy B xs [] [] 2
  · exact splitDictLoop_eq_specGreedy B ps [] [] 2

/-- A 27-character string item; its compact serialization is 29 bytes, so
its per-item estimate including the separator byte is 30. -/
def item30 : Json := Json.str (String.mk (List.replicate 27 'a'))

/-- Claim C5 (counterexample): with four items whose per-element estimates
are all 30 and budget 65, `split_json_data` does not produce
`[[item0, item1], [item2], [item3]]`: after the overflow flush the fourth
item still fits with the third (2 + 30 + 30 = 62 ≤ 65). -/
theorem split_json_data_simple_split_cex :
    listEst item30 = 30 ∧
    split_json_data 65 (Json.arr [item30, item30, item30, item30]) ≠
      [Json.arr [item30, item30], Json.arr [item30], Json.arr [item30]] := by
  refine ⟨rfl, ?_⟩
  intro h
  have he : split_json_data 65 (Json.arr [item30, item30, item30, item30]) =
      [Json.arr [item30, item30], Json.arr [item30, item30]] := rfl
  rw [he] at h
  simp at h

/-- Claim C5 (amended): for a four-item list dataset in which every item's
per-element size estimate is 30 and budget 65, `split_json_data` produces
the chunk sequence `[[item0, item1], [item2, item3]]` (items 0 and 1 fill
2 + 30 + 30 = 62 ≤ 65; item 2 overflows and opens a new chunk, which item 3
then joins). -/
theorem split_json_data_simple_split (a b c d : Json)
    (ha : listEst a = 30) (hb : listEst b = 30) (hc : listEst c = 30)
    (hd : listEst d = 30) :
    split_json_data 65 (Json.arr [a, b, c, d]) =
      [Json.arr [a, b], Json.arr [c, d]] := by
  rw [split_json_data_arr]
  have hsteps : splitListData 65 [a, b, c, d] = [[a, b], [c, d]] := by
    simp [splitListData, splitListLoop, ha, hb, hc, hd]
  rw [hsteps]
  rfl

theorem split_json_data_simple_split_witness :
    listEst item30 = 30 ∧
    split_json_data 65 (Json.arr [item30, item30, item30, item30]) =
      [Json.arr [item30, item30], Json.arr [item30, item30]] :=
  ⟨rfl, split_json_data_simple_split item30 item30 item30 item30 rfl rfl rfl rfl⟩
